import Mathlib

/-!
Verification development for the multiscale module of fibsem-tools
(src/fibsem_tools/io/multiscale.py).

The countless kernel is embedded at the granularity of one window: the
source applies it to a whole array of windows at once through strided
slicing and elementwise numpy operations, so for a single window whose
shape equals the downsampling factor every section data[o::f] is the one
element of the window at multi-index o, and np.ndindex enumerates these
offsets in row-major order.  A window is therefore a row-major list of
its non-negative integer codes, and the elementwise pick / lor operations
act on single naturals.
-/

set_option maxHeartbeats 1000000

/-- Pairwise agreement operation of the countless kernel
(multiscale.py line 216): a * (a == b), the shared value when the two
operands agree, else 0. -/
def pick (a b : Nat) : Nat := a * (if a = b then 1 else 0)

/-- Sentinel-respecting logical or of the countless kernel
(multiscale.py line 217): x + (x == 0) * y, preferring the left operand
unless it is the sentinel 0. -/
def lor (x y : Nat) : Nat := x + (if x = 0 then 1 else 0) * y

/-- Enumeration of the r-element combinations of an index list, in the
order produced by itertools.combinations (lexicographic for a sorted
input list, which is how the source calls it on range(n)). -/
def combinations : List Nat → Nat → List (List Nat)
  | _, 0 => [[]]
  | [], _ + 1 => []
  | x :: xs, r + 1 => ((combinations xs r).map (fun c => x :: c)) ++ combinations xs (r + 1)

/-- Sections of a single window (multiscale.py lines 212 to 214): for an
input whose shape equals the factor, the strided slices enumerate the
window's elements in row-major order, each shifted by +1 into a fresh
array. -/
def sectionsOf (w : List Nat) : List Nat := w.map (fun x => x + 1)

/-- Agreement value of a combination of section indices, computed along
the reversed combination: the source computes it as
pick(subproblems[0][combo[:-1]], sections[combo[-1]]) (line 233), i.e.
the pick-fold of the section values along the combination, where the
subproblems dictionaries merely memoize the value of this recursion for
the prefix combo[:-1] computed at the previous stage. -/
def resOfRev (s : List Nat) : List Nat → Nat
  | [] => 0
  | [i] => s.getD i 0
  | i :: rest => pick (resOfRev s rest) (s.getD i 0)

/-- Agreement value of a combination, indices in source order. -/
def resOf (s : List Nat) (combo : List Nat) : Nat := resOfRev s combo.reverse

/-- Accumulation of stage subresults with lor, mirroring the r_results
accumulator of multiscale.py lines 221 to 241 (None start, first value
taken as is); 0 for an empty list, which the source never folds for the
window sizes under study. -/
def lorFold : List Nat → Nat
  | [] => 0
  | x :: xs => xs.foldl lor x

/-- Combined result of one subset-size stage: the lor-fold, in
enumeration order, of the agreement values of all combinations of the
given index list. -/
def stageVal (s : List Nat) (idxs : List Nat) (r : Nat) : Nat :=
  lorFold ((combinations idxs r).map (resOf s))

/-- Body of the countless kernel after the sections are built
(multiscale.py lines 209 to 249), parameterized by the index list used by
the pairwise stage, which the source takes to be range(len(sections) - 1)
(line 221).  mode_of is the total window size, majority the ceiling of
half of it, and the final line reverses the per-stage results, folds them
with lor, folds in the last section as fallback and undoes the +1 shift. -/
def countlessOnSections (s : List Nat) (pairIdxs : List Nat) : Nat :=
  let mode_of := s.length
  let majority := (mode_of + 1) / 2
  let results2 := stageVal s pairIdxs 2
  let results := results2 ::
    (List.range' 3 (majority + 1 - 3)).map (fun r => stageVal s (List.range mode_of) r)
  lor (lorFold results.reverse) (s.getLast?.getD 0) - 1

/-- The countless majority-vote kernel (multiscale.py lines 189 to 249)
applied to one window, given as the row-major list of its non-negative
integer codes. -/
def countless (w : List Nat) : Nat :=
  countlessOnSections (sectionsOf w) (List.range (w.length - 1))

/-- Reference kernel following the specification's words, whose pairwise
stage scans every unordered pair of all M sections rather than only the
pairs among the first M - 1. -/
def countlessAllPairs (w : List Nat) : Nat :=
  countlessOnSections (sectionsOf w) (List.range w.length)

theorem pick_eq (a b : Nat) : pick a b = if a = b then a else 0 := by
  unfold pick; split <;> simp

theorem pick_zero (b : Nat) : pick 0 b = 0 := by
  simp [pick]

theorem lor_eq (x y : Nat) : lor x y = if x = 0 then y else x := by
  by_cases hx : x = 0 <;> simp [lor, hx]

theorem foldl_lor_of_ne (l : List Nat) (x : Nat) (hx : x ≠ 0) : l.foldl lor x = x := by
  induction l with
  | nil => rfl
  | cons y ys ih => simp only [List.foldl_cons, lor_eq, if_neg hx]; exact ih

theorem lorFold_cons (x : Nat) (l : List Nat) :
    lorFold (x :: l) = if x = 0 then lorFold l else x := by
  by_cases hx : x = 0
  · subst hx
    cases l with
    | nil => simp [lorFold]
    | cons y ys => simp [lorFold, lor_eq]
  · simp only [if_neg hx, lorFold]
    exact foldl_lor_of_ne l x hx

theorem lorFold_first (l : List Nat) (c : Nat) (hc : c ≠ 0) (hmem : c ∈ l)
    (hall : ∀ x ∈ l, x = 0 ∨ x = c) : lorFold l = c := by
  induction l with
  | nil => simp at hmem
  | cons x xs ih =>
    rw [lorFold_cons]
    rcases hall x (by simp) with hx0 | hxc
    · subst hx0
      rw [if_pos rfl]
      rcases List.mem_cons.mp hmem with h | h
      · exact absurd h hc
      · exact ih h (fun y hy => hall y (List.mem_cons_of_mem _ hy))
    · subst hxc
      rw [if_neg hc]

theorem resOfRev_all (s : List Nat) (l : List Nat) (v : Nat) (hl : l ≠ [])
    (h : ∀ i ∈ l, s.getD i 0 = v) : resOfRev s l = v := by
  induction l with
  | nil => exact absurd rfl hl
  | cons i rest ih =>
    cases rest with
    | nil => simpa [resOfRev] using h i (by simp)
    | cons j t =>
      have hrest : resOfRev s (j :: t) = v :=
        ih (by simp) (fun k hk => h k (List.mem_cons_of_mem _ hk))
      have hi : s.getD i 0 = v := h i (by simp)
      simp only [resOfRev, hrest, hi, pick_eq]
      simp

theorem resOfRev_cases (s : List Nat) (l : List Nat)
    (hpos : ∀ i ∈ l, 1 ≤ s.getD i 0) :
    resOfRev s l = 0 ∨ (l ≠ [] ∧ ∀ i ∈ l, s.getD i 0 = resOfRev s l) := by
  induction l with
  | nil => exact Or.inl rfl
  | cons i rest ih =>
    cases rest with
    | nil =>
      refine Or.inr ⟨by simp, ?_⟩
      intro j hj
      rcases List.mem_singleton.mp hj with rfl
      rfl
    | cons j t =>
      rcases ih (fun k hk => hpos k (List.mem_cons_of_mem _ hk)) with h0 | ⟨_, hall⟩
      · left
        simp only [resOfRev, h0, pick_zero]
      · have hR : 1 ≤ resOfRev s (j :: t) := by
          have := hall j (by simp)
          have := hpos j (by simp)
          omega
        by_cases heq : resOfRev s (j :: t) = s.getD i 0
        · refine Or.inr ⟨by simp, ?_⟩
          intro k hk
          have hres : resOfRev s (i :: j :: t) = resOfRev s (j :: t) := by
            simp only [resOfRev, pick_eq, if_pos heq]
          rw [hres]
          rcases List.mem_cons.mp hk with rfl | hk'
          · exact heq.symm
          · exact hall k hk'
        · left
          simp only [resOfRev, pick_eq, if_neg heq]

theorem mem_combinations_sublist {l : List Nat} {r : Nat} {c : List Nat}
    (h : c ∈ combinations l r) : List.Sublist c l ∧ c.length = r := by
  induction l generalizing r c with
  | nil =>
    cases r with
    | zero => simp [combinations] at h; subst h; exact ⟨List.nil_sublist _, rfl⟩
    | succ r => simp [combinations] at h
  | cons x xs ih =>
    cases r with
    | zero => simp [combinations] at h; subst h; exact ⟨List.nil_sublist _, rfl⟩
    | succ r =>
      simp only [combinations, List.mem_append, List.mem_map] at h
      rcases h with ⟨c', hc', rfl⟩ | h
      · obtain ⟨hsub, hlen⟩ := ih hc'
        exact ⟨hsub.cons₂ x, by simp [hlen]⟩
      · obtain ⟨hsub, hlen⟩ := ih h
        exact ⟨hsub.cons x, hlen⟩

theorem sublist_mem_combinations {l c : List Nat} (h : List.Sublist c l) :
    c ∈ combinations l c.length := by
  induction h with
  | slnil => simp [combinations]
  | @cons l₁ l₂ a h ih =>
    cases hc : l₁ with
    | nil => simp [combinations]
    | cons y ys =>
      subst hc
      simp only [List.length_cons, combinations, List.mem_append]
      exact Or.inr ih
  | @cons₂ l₁ l₂ a h ih =>
    simp only [List.length_cons, combinations, List.mem_append, List.mem_map]
    exact Or.inl ⟨l₁, ih, rfl⟩

theorem map_getD_range (s : List Nat) :
    (List.range s.length).map (fun i => s.getD i 0) = s := by
  apply List.ext_getElem
  · simp
  · intro i h1 h2
    simp [List.getElem?_eq_getElem h2]

theorem count_le_of_agree_sublist (s : List Nat) (c : Nat) (combo : List Nat)
    (hsub : List.Sublist combo (List.range s.length))
    (hall : ∀ i ∈ combo, s.getD i 0 = c) : combo.length ≤ s.count c := by
  have h1 : List.Sublist (combo.map (fun i => s.getD i 0)) s := by
    have := hsub.map (fun i => s.getD i 0)
    rwa [map_getD_range] at this
  have h2 : (combo.map (fun i => s.getD i 0)).count c =
      (combo.map (fun i => s.getD i 0)).length := by
    rw [List.count_eq_length]
    intro b hb
    obtain ⟨i, hi, rfl⟩ := List.mem_map.mp hb
    exact (hall i hi).symm
  calc combo.length = (combo.map (fun i => s.getD i 0)).length := (List.length_map _ _).symm
    _ = (combo.map (fun i => s.getD i 0)).count c := h2.symm
    _ ≤ s.count c := h1.count_le c

theorem count_two_distinct (s : List Nat) (a b : Nat) (hab : a ≠ b) :
    s.count a + s.count b ≤ s.length := by
  induction s with
  | nil => simp
  | cons x t ih =>
    simp only [List.count_cons, List.length_cons, beq_iff_eq]
    by_cases hxa : x = a
    · have hxb : ¬x = b := fun e => hab (hxa.symm.trans e)
      rw [if_pos hxa, if_neg hxb]
      omega
    · by_cases hxb : x = b
      · rw [if_pos hxb, if_neg hxa]
        omega
      · rw [if_neg hxa, if_neg hxb]
        omega

theorem exists_agree_combo (t : List Nat) (c k : Nat) (hk : k ≤ t.count c) :
    ∃ combo : List Nat, List.Sublist combo (List.range t.length) ∧ combo.length = k ∧
      ∀ i ∈ combo, t.getD i 0 = c := by
  induction t generalizing k with
  | nil =>
    have : k = 0 := by simpa using hk
    exact ⟨[], by simp, by simp [this], by simp⟩
  | cons x t' ih =>
    cases k with
    | zero => exact ⟨[], List.nil_sublist _, rfl, by simp⟩
    | succ k' =>
      by_cases hx : c = x
      · have hcnt : k' ≤ t'.count c := by
          have : (x :: t').count c = t'.count c + 1 := by
            simp [List.count_cons, hx]
          omega
        obtain ⟨cb, hsub, hlen, hval⟩ := ih _ hcnt
        refine ⟨0 :: cb.map Nat.succ, ?_, by simp [hlen], ?_⟩
        · rw [List.length_cons, List.range_succ_eq_map]
          exact (hsub.map Nat.succ).cons₂ 0
        · intro i hi
          rcases List.mem_cons.mp hi with rfl | hi'
          · simpa using hx.symm
          · obtain ⟨j, hj, rfl⟩ := List.mem_map.mp hi'
            simpa using hval j hj
      · have hcnt : k' + 1 ≤ t'.count c := by
          have : (x :: t').count c = t'.count c := by
            simp [List.count_cons, hx]
          omega
        obtain ⟨cb, hsub, hlen, hval⟩ := ih _ hcnt
        refine ⟨cb.map Nat.succ, ?_, by simp [hlen], ?_⟩
        · rw [List.length_cons, List.range_succ_eq_map]
          exact List.Sublist.cons 0 (hsub.map Nat.succ)
        · intro i hi
          obtain ⟨j, hj, rfl⟩ := List.mem_map.mp hi
          simpa using hval j hj

theorem getD_eq_of_lt (l : List Nat) (i : Nat) (h : i < l.length) : l.getD i 0 = l[i] := by
  simp [List.getElem?_eq_getElem h]

theorem getD_take_eq (s : List Nat) (n i : Nat) (hi : i < n) (hn : n ≤ s.length) :
    (s.take n).getD i 0 = s.getD i 0 := by
  have h1 : i < (s.take n).length := by
    rw [List.length_take]
    omega
  have h2 : i < s.length := by omega
  rw [getD_eq_of_lt _ i h1, getD_eq_of_lt _ i h2, List.getElem_take]

theorem count_map_add_one (w : List Nat) (v : Nat) :
    (w.map (fun x => x + 1)).count (v + 1) = w.count v := by
  induction w with
  | nil => simp
  | cons x t ih =>
    simp only [List.map_cons, List.count_cons, ih, beq_iff_eq]
    by_cases h : x = v
    · rw [if_pos (by omega), if_pos h]
    · rw [if_neg (by omega), if_neg h]

/-- Stage-level majority property: when the agreeing value c appears at
least r times among the first n sections and every other value appears
fewer than r times in the whole section list, the lor-fold over the
r-combinations of range n is exactly c. -/
theorem stageVal_majority (s : List Nat) (n r c : Nat)
    (hpos : ∀ i, i < s.length → 1 ≤ s.getD i 0)
    (hn : n ≤ s.length) (hr : 1 ≤ r) (hc : c ≠ 0)
    (hex : r ≤ (s.take n).count c)
    (hub : ∀ d, d ≠ c → s.count d < r) :
    stageVal s (List.range n) r = c := by
  unfold stageVal
  apply lorFold_first _ c hc
  · obtain ⟨combo, hsub, hlen, hval⟩ := exists_agree_combo (s.take n) c r hex
    have hlen_take : (s.take n).length = n := by
      rw [List.length_take]
      omega
    rw [hlen_take] at hsub
    have hvals : ∀ i ∈ combo, s.getD i 0 = c := by
      intro i hi
      have hin : i < n := List.mem_range.mp (hsub.subset hi)
      rw [← getD_take_eq s n i hin hn]
      exact hval i hi
    refine List.mem_map.mpr ⟨combo, ?_, ?_⟩
    · have := sublist_mem_combinations hsub
      rwa [hlen] at this
    · unfold resOf
      apply resOfRev_all
      · intro hrev
        have : combo = [] := by simpa using hrev
        rw [this] at hlen
        simp at hlen
        omega
      · intro i hi
        exact hvals i (List.mem_reverse.mp hi)
  · intro x hx
    obtain ⟨combo, hcm, rfl⟩ := List.mem_map.mp hx
    obtain ⟨hsub, hlen⟩ := mem_combinations_sublist hcm
    have hsub' : List.Sublist combo (List.range s.length) :=
      hsub.trans (List.range_sublist.mpr hn)
    have hposrev : ∀ i ∈ combo.reverse, 1 ≤ s.getD i 0 := by
      intro i hi
      exact hpos i (List.mem_range.mp (hsub'.subset (List.mem_reverse.mp hi)))
    rcases resOfRev_cases s combo.reverse hposrev with h0 | ⟨_, hall⟩
    · exact Or.inl h0
    · by_cases hRc : resOfRev s combo.reverse = c
      · exact Or.inr hRc
      · exfalso
        have hcount : combo.length ≤ s.count (resOfRev s combo.reverse) := by
          apply count_le_of_agree_sublist s _ combo hsub'
          intro i hi
          exact hall i (List.mem_reverse.mpr hi)
        have := hub _ hRc
        omega

/-- Unfolded form of the kernel body: the per-stage results in source
order are the pairwise stage followed by the stages r = 3 .. majority,
reversed before the final fold. -/
theorem countlessOnSections_eq (s : List Nat) (p : List Nat) :
    countlessOnSections s p =
      lor (lorFold ((stageVal s p 2 ::
        (List.range' 3 ((s.length + 1) / 2 + 1 - 3)).map
          (fun r => stageVal s (List.range s.length) r)).reverse))
        (s.getLast?.getD 0) - 1 := rfl

/-- Core majority theorem for the kernel body, for any even window size
at least 4 and any pairwise index bound p covering at least the first
M - 1 sections (the source uses p = M - 1; the all-pairs reference
version uses p = M). -/
theorem countless_majority_core (w : List Nat) (v p : Nat)
    (heven : w.length % 2 = 0) (h4 : 4 ≤ w.length)
    (hp1 : w.length - 1 ≤ p) (hp2 : p ≤ w.length)
    (hcnt : w.length / 2 < w.count v) :
    countlessOnSections (sectionsOf w) (List.range p) = v := by
  set s := sectionsOf w with hs
  have hsl : s.length = w.length := by simp [hs, sectionsOf]
  have hpos : ∀ i, i < s.length → 1 ≤ s.getD i 0 := by
    intro i hi
    have hi' : i < w.length := by omega
    rw [hs, sectionsOf, getD_eq_of_lt _ i (by simpa using hi'), List.getElem_map]
    omega
  have hcount : s.count (v + 1) = w.count v := by
    rw [hs, sectionsOf]
    exact count_map_add_one w v
  have hcnt' : w.length / 2 + 1 ≤ s.count (v + 1) := by omega
  have hub : ∀ d, d ≠ v + 1 → s.count d < w.length / 2 := by
    intro d hd
    have h2 := count_two_distinct s d (v + 1) hd
    rw [hsl] at h2
    omega
  have htake : ∀ n, n ≤ w.length → w.length / 2 + 1 - (w.length - n) ≤ (s.take n).count (v + 1) := by
    intro n hn
    have hsplit : s.count (v + 1) = (s.take n).count (v + 1) + (s.drop n).count (v + 1) := by
      conv_lhs => rw [← List.take_append_drop n s]
      rw [List.count_append]
    have hdrop : (s.drop n).count (v + 1) ≤ s.length - n :=
      le_trans (List.count_le_length _ _) (le_of_eq (List.length_drop _ _))
    omega
  rw [countlessOnSections_eq, hsl]
  by_cases hM : w.length = 4
  · have hz : (w.length + 1) / 2 + 1 - 3 = 0 := by omega
    rw [hz]
    simp only [List.range'_zero, List.map_nil, List.reverse_cons, List.reverse_nil,
      List.nil_append]
    have hstage : stageVal s (List.range p) 2 = v + 1 := by
      apply stageVal_majority s p 2 (v + 1) hpos (by omega) (by omega) (by omega)
      · have := htake p (by omega)
        omega
      · intro d hd
        have := hub d hd
        omega
    rw [show lorFold [stageVal s (List.range p) 2] = stageVal s (List.range p) 2 from rfl]
    rw [hstage, lor_eq, if_neg (by omega)]
    omega
  · have hmaj3 : 3 ≤ (w.length + 1) / 2 := by omega
    have hsplit : (w.length + 1) / 2 + 1 - 3 = ((w.length + 1) / 2 - 3) + 1 := by omega
    rw [hsplit, List.range'_concat]
    have h3k : 3 + 1 * ((w.length + 1) / 2 - 3) = (w.length + 1) / 2 := by omega
    rw [h3k, List.map_append]
    rw [List.reverse_cons, List.reverse_append]
    simp only [List.map_cons, List.map_nil, List.reverse_cons, List.reverse_nil,
      List.nil_append, List.cons_append]
    have hstage : stageVal s (List.range w.length) ((w.length + 1) / 2) = v + 1 := by
      apply stageVal_majority s w.length ((w.length + 1) / 2) (v + 1) hpos (by omega)
        (by omega) (by omega)
      · have := htake w.length (by omega)
        omega
      · intro d hd
        have := hub d hd
        omega
    rw [hstage, lorFold_cons, if_neg (by omega), lor_eq, if_neg (by omega)]
    omega

/-- C1: for every window of total size M built from per-axis factor 2
(M in {4, 8, 16}) whose elements are non-negative integer codes, if some
value v occurs in strictly more than M / 2 positions of the window, the
countless kernel applied to that window returns v, for every arrangement
of the window's elements. -/
theorem countless_strict_majority (w : List Nat) (v : Nat)
    (hM : w.length = 4 ∨ w.length = 8 ∨ w.length = 16)
    (hcnt : w.length / 2 < w.count v) :
    countless w = v := by
  have heven : w.length % 2 = 0 := by rcases hM with h | h | h <;> omega
  have h4 : 4 ≤ w.length := by rcases hM with h | h | h <;> omega
  exact countless_majority_core w v (w.length - 1) heven h4 le_rfl (by omega) hcnt

theorem countless_strict_majority_witness :
    ([7, 7, 7, 2] : List Nat).length / 2 < ([7, 7, 7, 2] : List Nat).count 7 ∧
      countless [7, 7, 7, 2] = 7 :=
  ⟨by decide, countless_strict_majority [7, 7, 7, 2] 7 (Or.inl rfl) (by decide)⟩

/-- C4: the kernel shifts every input value by +1 before processing and
shifts the result back, so the internal sentinel 0 never collides with a
legitimate input code; in particular a window in which 0 holds a strict
majority yields output 0.  Stated for every window of even size at least
4 (every per-axis factor-2 window size M = 2^k with k at least 2). -/
theorem countless_zero_majority_safe (w : List Nat)
    (heven : w.length % 2 = 0) (h4 : 4 ≤ w.length)
    (hcnt : w.length / 2 < w.count 0) :
    countless w = 0 :=
  countless_majority_core w 0 (w.length - 1) heven h4 le_rfl (by omega) hcnt

theorem countless_zero_majority_safe_witness :
    ([0, 0, 0, 5] : List Nat).length / 2 < ([0, 0, 0, 5] : List Nat).count 0 ∧
      countless [0, 0, 0, 5] = 0 :=
  ⟨by decide, countless_zero_majority_safe [0, 0, 0, 5] rfl (by decide) (by decide)⟩

/-- C9, counterexample: the implemented pairwise stage scans only the
pairs among the first M - 1 sections (combinations(range(len(sections) - 1), 2),
multiscale.py line 221), not all M choose 2 unordered pairs of sections,
and the two kernels are not extensionally equal: on the tie window
[0, 1, 1, 0] the implemented kernel returns 1 while the all-pairs
reference version returns 0. -/
theorem countless_pairs_scope_counterexample :
    countless [0, 1, 1, 0] = 1 ∧ countlessAllPairs [0, 1, 1, 0] = 0 ∧
      countless [0, 1, 1, 0] ≠ countlessAllPairs [0, 1, 1, 0] := by
  refine ⟨rfl, rfl, ?_⟩
  decide

/-- C9, amended: the pairwise stage of the implemented kernel scans the
unordered pairs of the first M - 1 sections only, the last section
entering through the final fallback; the implemented kernel agrees with
the all-pairs reference version on every window that has a strict
majority value (they differ only on windows without one, as the
counterexample shows). -/
theorem countless_eq_allPairs_on_majority (w : List Nat) (v : Nat)
    (heven : w.length % 2 = 0) (h4 : 4 ≤ w.length)
    (hcnt : w.length / 2 < w.count v) :
    countless w = countlessAllPairs w := by
  have h1 : countless w = v :=
    countless_majority_core w v (w.length - 1) heven h4 le_rfl (by omega) hcnt
  have h2 : countlessAllPairs w = v :=
    countless_majority_core w v w.length heven h4 (by omega) le_rfl hcnt
  rw [h1, h2]

theorem countless_eq_allPairs_on_majority_witness :
    ([3, 3, 3, 3] : List Nat).length / 2 < ([3, 3, 3, 3] : List Nat).count 3 ∧
      countless [3, 3, 3, 3] = countlessAllPairs [3, 3, 3, 3] :=
  ⟨by decide, countless_eq_allPairs_on_majority [3, 3, 3, 3] 3 rfl (by decide) (by decide)⟩

/-- Which code path a mode_reduce call executed. -/
inductive ReducePath where
  | kernel : ReducePath
  | external : ReducePath
deriving DecidableEq

/-- Generic reducer dispatch (multiscale.py lines 179 to 186) on one
window: if np.all(window_size == 2) the countless kernel runs, else the
call is delegated to the external windowed_mode reducer of
xarray_multiscale.reducers, here a parameter wm; the returned pair
records, alongside the produced value, which path executed. -/
def mode_reduce (wm : List Nat → List Nat → Nat) (w : List Nat)
    (window_size : List Nat) : ReducePath × Nat :=
  if window_size.all (fun x => x == 2) then (ReducePath.kernel, countless w)
  else (ReducePath.external, wm w window_size)

/-- C3: mode_reduce invokes the countless kernel if and only if every
entry of the factor tuple equals 2; otherwise it delegates to the
external reducer; in each case it returns the selected path's result
unchanged. -/
theorem mode_reduce_dispatch (wm : List Nat → List Nat → Nat) (w ws : List Nat) :
    ((mode_reduce wm w ws).1 = ReducePath.kernel ↔ ∀ x ∈ ws, x = 2) ∧
      ((mode_reduce wm w ws).1 = ReducePath.kernel →
        (mode_reduce wm w ws).2 = countless w) ∧
      ((mode_reduce wm w ws).1 = ReducePath.external →
        (mode_reduce wm w ws).2 = wm w ws) := by
  by_cases h : ws.all (fun x => x == 2)
  · have hall : ∀ x ∈ ws, x = 2 := by
      intro x hx
      simpa using List.all_eq_true.mp h x hx
    rw [mode_reduce, if_pos h]
    exact ⟨⟨fun _ => hall, fun _ => rfl⟩, fun _ => rfl, fun hk => ReducePath.noConfusion hk⟩
  · have hnall : ¬∀ x ∈ ws, x = 2 := by
      intro hall
      apply h
      rw [List.all_eq_true]
      intro x hx
      simpa using hall x hx
    rw [mode_reduce, if_neg h]
    exact ⟨⟨fun hk => ReducePath.noConfusion hk, fun hall => absurd hall hnall⟩,
      fun hk => ReducePath.noConfusion hk, fun _ => rfl⟩

theorem mode_reduce_dispatch_witness :
    (mode_reduce (fun _ _ => 99) [1, 2, 2, 2] [2, 2]).1 = ReducePath.kernel ∧
      (mode_reduce (fun _ _ => 99) [1, 2, 2, 2] [2, 2]).2 = countless [1, 2, 2, 2] :=
  ⟨(mode_reduce_dispatch (fun _ _ => 99) [1, 2, 2, 2] [2, 2]).1.mpr (by decide),
    (mode_reduce_dispatch (fun _ _ => 99) [1, 2, 2, 2] [2, 2]).2.1 rfl⟩

/-- State-passing embedding of the section-building loop of the kernel
(multiscale.py lines 207 to 214): each iteration only reads the input
array and binds part to a freshly allocated shifted copy
(part = data[...] + 1, not an in-place data += 1); the second component
is the state of the input array after the loop. -/
def buildSections (data : List Nat) : List Nat × List Nat :=
  ((List.range data.length).map (fun i => data.getD i 0 + 1), data)

/-- State-passing embedding of a full countless call: the produced value
together with the state of the input array after the call. -/
def countlessRun (data : List Nat) : Nat × List Nat :=
  (countlessOnSections (buildSections data).1 (List.range ((buildSections data).1.length - 1)),
    (buildSections data).2)

/-- C10: countless never mutates its input: after a call the array state
equals the initial contents, and the produced value is that of the pure
kernel on the original contents. -/
theorem countless_no_mutation (data : List Nat) :
    (countlessRun data).2 = data ∧ (countlessRun data).1 = countless data := by
  refine ⟨rfl, ?_⟩
  unfold countlessRun countless buildSections
  have h1 : (List.range data.length).map (fun i => data.getD i 0 + 1) = sectionsOf data := by
    have hcomp := congrArg (List.map (fun x => x + 1)) (map_getD_range data)
    rw [List.map_map] at hcomp
    exact hcomp
  simp only [h1]
  have h2 : (sectionsOf data).length = data.length := by simp [sectionsOf]
  rw [h2]

/-- Coordinate model of one array level: per-axis scale, translation,
unit label and axis name, as carried by a SpatialTransform.  Coordinate
values are modelled as naturals; none of the properties under study
performs arithmetic on them. -/
structure STransform where
  scale : List Nat
  translate : List Nat
  units : List String
  axes : List String
deriving DecidableEq, Inhabited

/-- Attribute values stored in the free-form attribute dictionaries:
opaque caller-supplied payloads, a synthesized per-array transform, and
the two synthesized group-level metadata dialects. -/
inductive AVal where
  | nat : Nat → AVal
  | str : String → AVal
  | transform : STransform → AVal
  | cosemGroup : List (String × STransform) → AVal
  | neuroglancerGroup : List (List Nat) → List String → AVal
deriving DecidableEq, Inhabited

/-- Attribute dictionary: insertion-ordered string-keyed mapping, as a
python dict. -/
abbrev Attrs := List (String × AVal)

/-- In-memory model of one xarray.DataArray level: its attribute dict,
the dask chunk shape of its data (data.chunksize), and its coordinate
model. -/
structure DArr where
  attrs : Attrs
  chunksize : List Nat
  scale : List Nat
  translate : List Nat
  units : List String
  axes : List String
deriving DecidableEq, Inhabited

/-- The Multiscales collection (multiscale.py lines 20 to 51): a name, an
insertion-ordered dict of named arrays, and a dict of group attributes. -/
structure Multiscales where
  name : String
  arrays : List (String × DArr)
  attrs : Attrs
deriving DecidableEq, Inhabited

/-- Duck-typed python value handed to the Multiscales constructor as a
level: either an xarray.DataArray or some other python object (tagged). -/
inductive PyVal where
  | dataArray : DArr → PyVal
  | other : Nat → PyVal
deriving DecidableEq, Inhabited

def PyVal.isDataArray : PyVal → Bool
  | .dataArray _ => true
  | .other _ => false

def PyVal.toArr : PyVal → DArr
  | .dataArray a => a
  | .other _ => default

/-- The Multiscales constructor (multiscale.py lines 21 to 51): the
arrays argument must be a dict whose values are all DataArray instances,
otherwise a ValueError is raised; no other validation is performed.  The
isinstance(arrays, dict) check is rendered by the argument type. -/
def mkMultiscales (name : String) (arrays : List (String × PyVal)) (attrs : Attrs) :
    Except String Multiscales :=
  if arrays.all (fun kv => kv.2.isDataArray) then
    Except.ok ⟨name, arrays.map (fun kv => (kv.1, kv.2.toArr)), attrs⟩
  else
    Except.error "`arrays` must be a dict of xarray.DataArray"

/-- Insert-or-replace on an insertion-ordered dict, the semantics of a
python dict item assignment. -/
def dictSet {V : Type} : List (String × V) → String → V → List (String × V)
  | [], k, v => [(k, v)]
  | (k', v') :: t, k, v =>
    if k' = k then (k, v) :: t else (k', v') :: dictSet t k v

/-- Left dict updated by the right dict, the semantics of python
d.update(e) and of dict unpacking merges. -/
def dictUpdate {V : Type} (d e : List (String × V)) : List (String × V) :=
  e.foldl (fun acc kv => dictSet acc kv.1 kv.2) d

/-- Modelled from the spec: SpatialTransform.fromDataArray of the
external fibsem_tools.metadata.cosem module (not part of the covered
source) packages the per-axis scale, translation, unit and axis-name
vectors of an array's coordinate model. -/
def spatialTransformOf (a : DArr) : STransform :=
  ⟨a.scale, a.translate, a.units, a.axes⟩

/-- Modelled from the spec: COSEMGroupMetadata.fromDataArrays of the
external fibsem_tools.metadata.cosem module synthesizes the geometry
dialect, an ordered list of per-level descriptors holding each level's
path and transform; the encoder's concrete key string is external, here
rendered as the single key "multiscales". -/
def cosemGroupMetadata (m : Multiscales) : Attrs :=
  [("multiscales", AVal.cosemGroup (m.arrays.map (fun kv => (kv.1, spatialTransformOf kv.2))))]

/-- Modelled from the spec: NeuroglancerN5GroupMetadata.fromDataArrays of
the external fibsem_tools.metadata.neuroglancer module synthesizes the
viewer-convention dialect from the per-level scale factors plus the axis
order; the encoder's concrete key string is external, here rendered as
the single key "neuroglancer". -/
def neuroglancerGroupMetadata (m : Multiscales) : Attrs :=
  [("neuroglancer", AVal.neuroglancerGroup (m.arrays.map (fun kv => kv.2.scale))
      ((m.arrays.map (fun kv => kv.2.axes)).headD []))]

/-- Group metadata synthesis, Multiscales._group_metadata (multiscale.py
lines 56 to 67): the merge of the two dialect dicts, the neuroglancer
dict unpacked last. -/
def groupMetadataOf (m : Multiscales) : Attrs :=
  dictUpdate (cosemGroupMetadata m) (neuroglancerGroupMetadata m)

/-- Per-array synthesized attrs of one level, the entry built by
Multiscales._array_metadata (multiscale.py lines 69 to 74): a single
"transform" key. -/
def arrayMetaEntry (a : DArr) : Attrs :=
  [("transform", AVal.transform (spatialTransformOf a))]

/-- Array metadata synthesis, Multiscales._array_metadata (multiscale.py
lines 69 to 74). -/
def arrayMetadataOf (m : Multiscales) : List (String × Attrs) :=
  m.arrays.map (fun kv => (kv.1, arrayMetaEntry kv.2))

/-- Group attrs computed at the start of store (multiscale.py lines 127
and 134): the collection attrs, updated by the synthesized group
metadata when multiscale_metadata is set. -/
def computedGroupAttrs (m : Multiscales) (multiscale_metadata : Bool) : Attrs :=
  if multiscale_metadata then dictUpdate m.attrs (groupMetadataOf m) else m.attrs

/-- Attrs of one level as computed by store (multiscale.py lines 128 to
137): the level's own attrs when propagate_array_attrs is set, else
empty; updated with the synthesized per-array metadata entry when
multiscale_metadata is set. -/
def levelAttrs (multiscale_metadata propagate_array_attrs : Bool) (a : DArr) : Attrs :=
  if multiscale_metadata then
    dictUpdate (if propagate_array_attrs then a.attrs else []) (arrayMetaEntry a)
  else
    (if propagate_array_attrs then a.attrs else [])

/-- Per-level attrs dict computed by store, fusing the dict
comprehensions of lines 128, 131 and the per-key update loop of lines
136 to 137 positionally (the loop runs over the same keys in the same
order). -/
def computedArrayAttrs (m : Multiscales) (multiscale_metadata propagate_array_attrs : Bool) :
    List (String × Attrs) :=
  m.arrays.map (fun kv => (kv.1, levelAttrs multiscale_metadata propagate_array_attrs kv.2))

/-- Value passed as the chunks argument of store: either a single chunk
shape tuple or, per the docstring of store (multiscale.py lines 96 to
100), a per-level mapping from level name to chunk shape. -/
inductive ChunkArg where
  | tup : List Nat → ChunkArg
  | perLevel : List (String × List Nat) → ChunkArg
deriving DecidableEq, Inhabited

/-- Chunk resolution of store (multiscale.py lines 139 to 142): when
chunks is None, each level maps to its own array's native chunksize;
otherwise every level maps to the chunks argument itself, whatever it
is. -/
def resolveChunks (m : Multiscales) (chunks : Option ChunkArg) : List (String × ChunkArg) :=
  match chunks with
  | none => m.arrays.map (fun kv => (kv.1, ChunkArg.tup kv.2.chunksize))
  | some c => m.arrays.map (fun kv => (kv.1, c))

/-- Destination array handle as returned by the external store: name,
chunk argument it was created with, and attrs. -/
structure ZArr where
  basename : String
  chunks : ChunkArg
  zattrs : Attrs
deriving DecidableEq, Inhabited

/-- Destination group handle as returned by the external store. -/
structure ZGroup where
  guri : String
  gattrs : Attrs
  garrays : List (String × ZArr)
deriving DecidableEq, Inhabited

/-- Modelled from the spec: initialize_group of the external
fibsem_tools.io module (not part of the covered source) creates or opens
the destination group at the uri with the given group attrs and one
destination array per level, each created with its path, its resolved
chunk argument and its array attrs. -/
def initialize_group (uri : String) (array_paths : List String)
    (chunksL : List ChunkArg) (group_attrs : Attrs) (array_attrs : List Attrs) : ZGroup :=
  ⟨uri, group_attrs,
    List.zipWith (fun p ca => (p, ZArr.mk p ca.1 ca.2)) array_paths (chunksL.zip array_attrs)⟩

/-- External interactions emitted by store, in order: the
initialize_group call that creates the destination group and arrays, and
the store_blocks call that emits the deferred write operations. -/
inductive StoreEvent where
  | initializeGroup : ZGroup → StoreEvent
  | storeBlocks : List String → StoreEvent
deriving DecidableEq

def StoreEvent.isInitializeGroup : StoreEvent → Bool
  | .initializeGroup _ => true
  | _ => false

/-- Destination array handle, possibly wrapped with a chunk lock bound
to a client (clients are modelled by an opaque numeric identity). -/
inductive DestHandle where
  | plain : ZArr → DestHandle
  | locked : ZArr → Nat → DestHandle
deriving DecidableEq, Inhabited

def DestHandle.isLocked : DestHandle → Bool
  | .plain _ => false
  | .locked _ _ => true

/-- Modelled from the spec: lock_array of the external
fibsem_tools.io.zarr module wraps a destination array handle with a
chunk-lock capability registered with the client. -/
def lock_array (a : ZArr) (client : Nat) : DestHandle :=
  DestHandle.locked a client

/-- The axis-wise misalignment test of store (multiscale.py lines 162 to
168): np.any(np.mod(source chunksize, destination chunks) > 0), for two
numeric chunk shapes of equal rank. -/
def chunksMisaligned (src dst : List Nat) : Bool :=
  (src.zip dst).any (fun pr => decide (0 < pr.1 % pr.2))

/-- Misalignment test against the chunk argument a destination array was
created with: numeric for a tuple; np.mod applied to a dict operand
raises a TypeError. -/
def anyChunkMisaligned (src : List Nat) (dst : ChunkArg) : Except String Bool :=
  match dst with
  | .tup t => Except.ok (chunksMisaligned src t)
  | .perLevel _ => Except.error "TypeError: unsupported operand for np.mod"

/-- The locking loop of store (multiscale.py lines 160 to 172): each
destination array whose source chunksize is misaligned with its chunks
is wrapped by lock_array, the others are kept as they are. -/
def lockedArrays (m : Multiscales) (client : Nat) : List ZArr → Except String (List DestHandle)
  | [] => Except.ok []
  | a :: rest =>
    match anyChunkMisaligned ((List.lookup a.basename m.arrays).getD default).chunksize a.chunks with
    | Except.error e => Except.error e
    | Except.ok b =>
      match lockedArrays m client rest with
      | Except.error e => Except.error e
      | Except.ok hs =>
        Except.ok ((if b then lock_array a client else DestHandle.plain a) :: hs)

/-- Modelled from the spec: store_blocks of the external
fibsem_tools.io.dask module emits the deferred write operations pairing
each source array with its destination handle; the per-chunk fan-out of
the spec is not modelled, as no claim under study refers to it. -/
def store_blocks (srcPaths : List String) (dsts : List DestHandle) : List (String × DestHandle) :=
  srcPaths.zip dsts

/-- Value returned by store: the group handle, the destination array
handles (wrapped or not), and the deferred write operations. -/
structure StoreResult where
  group : ZGroup
  arrays : List DestHandle
  ops : List (String × DestHandle)
deriving DecidableEq

/-- The store orchestrator, Multiscales.store (multiscale.py lines 76 to
176), with the trace of external interactions it performed alongside its
outcome.  The uri, chunks, metadata and propagation flags, locking flag
and client mirror the python signature; access_modes and kwargs are
passed through to the external store and are not modelled. -/
def Multiscales.store (m : Multiscales) (uri : String) (chunks : Option ChunkArg)
    (multiscale_metadata propagate_array_attrs : Bool) (locking : Bool)
    (client : Option Nat) : List StoreEvent × Except String StoreResult :=
  let group_attrs := computedGroupAttrs m multiscale_metadata
  let array_attrs := computedArrayAttrs m multiscale_metadata propagate_array_attrs
  let chunksR := resolveChunks m chunks
  let store_group := initialize_group uri (m.arrays.map Prod.fst) (chunksR.map Prod.snd)
    group_attrs (array_attrs.map Prod.snd)
  let ev0 := [StoreEvent.initializeGroup store_group]
  let store_arrays := store_group.garrays.map Prod.snd
  if locking then
    match client with
    | none =>
      (ev0, Except.error "Supply an instance of distributed.Client to use locking.")
    | some cl =>
      match lockedArrays m cl store_arrays with
      | Except.error e => (ev0, Except.error e)
      | Except.ok handles =>
        (ev0 ++ [StoreEvent.storeBlocks (m.arrays.map Prod.fst)],
          Except.ok ⟨store_group, handles, store_blocks (m.arrays.map Prod.fst) handles⟩)
  else
    let handles := store_arrays.map DestHandle.plain
    (ev0 ++ [StoreEvent.storeBlocks (m.arrays.map Prod.fst)],
      Except.ok ⟨store_group, handles, store_blocks (m.arrays.map Prod.fst) handles⟩)

theorem lookup_dictSet_self {V : Type} (d : List (String × V)) (k : String) (v : V) :
    List.lookup k (dictSet d k v) = some v := by
  induction d with
  | nil => simp [dictSet, List.lookup]
  | cons p t ih =>
    obtain ⟨k', v'⟩ := p
    by_cases h : k' = k
    · simp [dictSet, h, List.lookup]
    · simp only [dictSet, if_neg h, List.lookup]
      rw [show (k == k') = false from beq_eq_false_iff_ne.mpr (fun e => h e.symm)]
      exact ih

theorem lookup_dictSet_ne {V : Type} (d : List (String × V)) (k k' : String) (v : V)
    (h : k' ≠ k) : List.lookup k' (dictSet d k v) = List.lookup k' d := by
  induction d with
  | nil =>
    simp only [dictSet, List.lookup]
    rw [show (k' == k) = false from beq_eq_false_iff_ne.mpr h]
  | cons p t ih =>
    obtain ⟨k1, v1⟩ := p
    by_cases h1 : k1 = k
    · subst h1
      simp only [dictSet, if_pos rfl, List.lookup]
      rw [show (k' == k1) = false from beq_eq_false_iff_ne.mpr h]
    · simp only [dictSet, if_neg h1, List.lookup]
      cases hbeq : (k' == k1) with
      | true => rfl
      | false => exact ih

theorem lookup_none_of_not_mem_keys {V : Type} (l : List (String × V)) (k : String)
    (h : k ∉ l.map Prod.fst) : List.lookup k l = none := by
  induction l with
  | nil => rfl
  | cons p t ih =>
    obtain ⟨k1, v1⟩ := p
    simp only [List.map_cons, List.mem_cons] at h
    push_neg at h
    simp only [List.lookup]
    rw [show (k == k1) = false from beq_eq_false_iff_ne.mpr h.1]
    exact ih h.2

theorem lookup_dictUpdate_none {V : Type} (d e : List (String × V)) (k : String)
    (h : List.lookup k e = none) :
    List.lookup k (dictUpdate d e) = List.lookup k d := by
  induction e generalizing d with
  | nil => rfl
  | cons p t ih =>
    obtain ⟨k1, v1⟩ := p
    have hne : (k == k1) = false := by
      cases hbeq : (k == k1) with
      | true => simp [List.lookup, hbeq] at h
      | false => rfl
    have ht : List.lookup k t = none := by
      simpa [List.lookup, hne] using h
    show List.lookup k (dictUpdate (dictSet d k1 v1) t) = List.lookup k d
    rw [ih (dictSet d k1 v1) ht,
      lookup_dictSet_ne d k1 k v1 (by simpa using beq_eq_false_iff_ne.mp hne)]

theorem lookup_dictUpdate_some {V : Type} (d e : List (String × V)) (k : String) (v : V)
    (hnd : (e.map Prod.fst).Nodup) (h : List.lookup k e = some v) :
    List.lookup k (dictUpdate d e) = some v := by
  induction e generalizing d with
  | nil => simp [List.lookup] at h
  | cons p t ih =>
    obtain ⟨k1, v1⟩ := p
    simp only [List.map_cons, List.nodup_cons] at hnd
    by_cases hk : k = k1
    · subst hk
      have hv : v1 = v := by
        simpa [List.lookup] using h
      subst hv
      have hnone : List.lookup k t = none :=
        lookup_none_of_not_mem_keys t k hnd.1
      show List.lookup k (dictUpdate (dictSet d k v1) t) = some v1
      rw [lookup_dictUpdate_none (dictSet d k v1) t k hnone, lookup_dictSet_self]
    · have ht : List.lookup k t = some v := by
        simpa [List.lookup, show (k == k1) = false from beq_eq_false_iff_ne.mpr hk] using h
      exact ih (dictSet d k1 v1) hnd.2 ht

theorem lookup_self_of_nodup {V : Type} (l : List (String × V))
    (h : (l.map Prod.fst).Nodup) : ∀ kv ∈ l, List.lookup kv.1 l = some kv.2 := by
  induction l with
  | nil => intro kv hkv; simp at hkv
  | cons p t ih =>
    intro kv hkv
    obtain ⟨k1, v1⟩ := p
    simp only [List.map_cons, List.nodup_cons] at h
    rcases List.mem_cons.mp hkv with rfl | hkv'
    · simp [List.lookup]
    · have hne : kv.1 ≠ k1 := by
        intro he
        exact h.1 (he ▸ List.mem_map.mpr ⟨kv, hkv', rfl⟩)
      simp only [List.lookup]
      rw [show (kv.1 == k1) = false from beq_eq_false_iff_ne.mpr hne]
      exact ih h.2 kv hkv'

/-- Example level array whose own attrs collide with the synthesized
"transform" key; native chunk shape (10,). -/
def exArr1 : DArr :=
  ⟨[("transform", AVal.nat 7), ("foo", AVal.nat 1)], [10], [2], [0], ["nm"], ["x"]⟩

/-- Example one-axis level array with empty attrs. -/
def exArr1d : DArr := ⟨[], [10], [2], [0], ["nm"], ["x"]⟩

/-- Example two-axis level array. -/
def exArr2 : DArr := ⟨[], [10, 10], [4, 4], [0, 0], ["nm", "nm"], ["y", "x"]⟩

/-- Example single-level collection. -/
def exM : Multiscales := ⟨"em", [("s0", exArr1)], [("root", AVal.nat 3)]⟩

/-- Example two-level collection. -/
def exM2 : Multiscales := ⟨"em2", [("s0", exArr1d), ("s1", exArr2)], []⟩

/-- C2, counterexample: store with locking and no client does raise the
ValueError, but only after the initialize_group interaction that creates
the destination group and arrays has already happened: on this concrete
collection the outcome is the error while the emitted trace already
contains the group-creation event, refuting "before any destination
group or destination array is created in the store". -/
theorem store_no_client_counterexample :
    (Multiscales.store exM "dest" none true true true none).2 =
      Except.error "Supply an instance of distributed.Client to use locking." ∧
    (Multiscales.store exM "dest" none true true true none).1.any
      (fun e => e.isInitializeGroup) = true :=
  ⟨rfl, rfl⟩

/-- C2, amended: store called with locking enabled and no client returns
the configuration ValueError before any deferred write operation is
emitted (no store_blocks event), but after the destination group and
arrays have been created: the trace consists exactly of the
initialize_group call. -/
theorem store_no_client_error_after_creation (m : Multiscales) (uri : String)
    (chunks : Option ChunkArg) (mm pp : Bool) :
    (Multiscales.store m uri chunks mm pp true none).2 =
      Except.error "Supply an instance of distributed.Client to use locking." ∧
    (Multiscales.store m uri chunks mm pp true none).1 =
      [StoreEvent.initializeGroup (initialize_group uri (m.arrays.map Prod.fst)
        ((resolveChunks m chunks).map Prod.snd) (computedGroupAttrs m mm)
        ((computedArrayAttrs m mm pp).map Prod.snd))] :=
  ⟨rfl, rfl⟩

/-- C6: the docstring of store (multiscale.py lines 96 to 100) promises
that a dict chunks argument routes each named level to its mapped shape,
but line 142 builds the per-level chunk dict as
a comprehension mapping every key to the chunks argument itself, so a
per-level mapping is assigned wholesale to every level instead of being
indexed by level name: on this concrete input every level's resolved
chunk value is the entire mapping, not its own shape. -/
theorem resolveChunks_perLevel_ignored :
    resolveChunks exM2 (some (ChunkArg.perLevel [("s0", [3]), ("s1", [5])])) =
      [("s0", ChunkArg.perLevel [("s0", [3]), ("s1", [5])]),
        ("s1", ChunkArg.perLevel [("s0", [3]), ("s1", [5])])] ∧
    resolveChunks exM2 (some (ChunkArg.perLevel [("s0", [3]), ("s1", [5])])) ≠
      [("s0", ChunkArg.tup [3]), ("s1", ChunkArg.tup [5])] := by
  refine ⟨rfl, ?_⟩
  decide

/-- C8, counterexample: the Multiscales constructor succeeds on a
collection whose levels have inconsistent dimensionality (a one-axis and
a two-axis array), refuting the claim that such input raises a
validation error; only the all-values-are-DataArray check exists. -/
theorem mkMultiscales_no_dim_check_counterexample :
    mkMultiscales "m" [("s0", PyVal.dataArray exArr1d), ("s1", PyVal.dataArray exArr2)] [] =
      Except.ok ⟨"m", [("s0", exArr1d), ("s1", exArr2)], []⟩ ∧
    exArr1d.axes.length = 1 ∧ exArr2.axes.length = 2 :=
  ⟨rfl, rfl, rfl⟩

/-- C8, amended: the constructor succeeds exactly when every level value
is a DataArray; it raises the ValueError otherwise, and performs no
dimensionality-consistency validation. -/
theorem mkMultiscales_ok_iff (name : String) (arrays : List (String × PyVal))
    (attrs : Attrs) :
    (∃ ms, mkMultiscales name arrays attrs = Except.ok ms) ↔
      arrays.all (fun kv => kv.2.isDataArray) = true := by
  unfold mkMultiscales
  by_cases h : arrays.all (fun kv => kv.2.isDataArray)
  · simp [h]
  · simp [h]

theorem getD_eq_getElem_of_lt {α : Type} (l : List α) (d : α) (i : Nat)
    (h : i < l.length) : l.getD i d = l[i] := by
  simp [List.getElem?_eq_getElem h]

theorem groupMetadata_keys (m : Multiscales) :
    (groupMetadataOf m).map Prod.fst = ["multiscales", "neuroglancer"] := by
  simp [groupMetadataOf, dictUpdate, cosemGroupMetadata, neuroglancerGroupMetadata, dictSet]

/-- C7: per-level attrs start from each array's own attrs when
propagate_array_attrs is set (else empty) and, with multiscale metadata
enabled, the synthesized "transform" entry overwrites any propagated
entry under the same key while all other keys keep their propagated
values; the group attrs are likewise the caller-supplied collection
attrs overlaid by the synthesized group metadata, which wins on
collision. -/
theorem store_attrs_merge_precedence (m : Multiscales) (pp : Bool) :
    ((computedArrayAttrs m true pp).length = m.arrays.length) ∧
    (∀ i, i < m.arrays.length →
      List.lookup "transform" ((computedArrayAttrs m true pp).getD i ("", [])).2 =
        some (AVal.transform (spatialTransformOf (m.arrays.getD i ("", default)).2))) ∧
    (∀ i (key : String), i < m.arrays.length → key ≠ "transform" →
      List.lookup key ((computedArrayAttrs m true pp).getD i ("", [])).2 =
        if pp then List.lookup key (m.arrays.getD i ("", default)).2.attrs else none) ∧
    (∀ (key : String) (v : AVal), List.lookup key (groupMetadataOf m) = some v →
      List.lookup key (computedGroupAttrs m true) = some v) ∧
    (∀ (key : String), List.lookup key (groupMetadataOf m) = none →
      List.lookup key (computedGroupAttrs m true) = List.lookup key m.attrs) := by
  have hlen : (computedArrayAttrs m true pp).length = m.arrays.length := by
    simp [computedArrayAttrs]
  have hentry : ∀ i, i < m.arrays.length →
      ((computedArrayAttrs m true pp).getD i ("", [])).2 =
        levelAttrs true pp (m.arrays.getD i ("", default)).2 := by
    intro i hi
    rw [getD_eq_getElem_of_lt _ _ i (by rw [hlen]; exact hi),
      getD_eq_getElem_of_lt _ _ i hi]
    simp [computedArrayAttrs]
  refine ⟨hlen, ?_, ?_, ?_, ?_⟩
  · intro i hi
    rw [hentry i hi]
    unfold levelAttrs
    rw [if_pos rfl]
    apply lookup_dictUpdate_some
    · simp [arrayMetaEntry]
    · simp [arrayMetaEntry, List.lookup]
  · intro i key hi hkey
    rw [hentry i hi]
    unfold levelAttrs
    rw [if_pos rfl]
    rw [lookup_dictUpdate_none]
    · cases pp with
      | true => rw [if_pos rfl, if_pos rfl]
      | false => rw [if_neg (by simp), if_neg (by simp)]; rfl
    · simp only [arrayMetaEntry, List.lookup]
      rw [show (key == "transform") = false from beq_eq_false_iff_ne.mpr hkey]
  · intro key v h
    have hnd : ((groupMetadataOf m).map Prod.fst).Nodup := by
      rw [groupMetadata_keys]
      decide
    unfold computedGroupAttrs
    rw [if_pos rfl]
    exact lookup_dictUpdate_some m.attrs (groupMetadataOf m) key v hnd h
  · intro key h
    unfold computedGroupAttrs
    rw [if_pos rfl]
    exact lookup_dictUpdate_none m.attrs (groupMetadataOf m) key h

theorem store_attrs_merge_precedence_witness :
    (0 < exM.arrays.length) ∧
    List.lookup "transform" ((computedArrayAttrs exM true true).getD 0 ("", [])).2 =
      some (AVal.transform (spatialTransformOf (exM.arrays.getD 0 ("", default)).2)) :=
  ⟨by decide, (store_attrs_merge_precedence exM true).2.1 0 (by decide)⟩

theorem zipWith_map_same {α β γ δ : Type} (f : β → γ → δ) (g : α → β) (h : α → γ)
    (l : List α) :
    List.zipWith f (l.map g) (l.map h) = l.map (fun x => f (g x) (h x)) := by
  induction l with
  | nil => rfl
  | cons a tl ih => simp [ih]

/-- Destination array handles created by initialize_group inside store,
for a uniform tuple chunks argument: one per level, in level order, each
carrying its level name, the uniform chunk tuple and the level's
computed attrs. -/
theorem store_arrays_eq (m : Multiscales) (uri : String) (t : List Nat) (mm pp : Bool) :
    (initialize_group uri (m.arrays.map Prod.fst)
      ((resolveChunks m (some (ChunkArg.tup t))).map Prod.snd)
      (computedGroupAttrs m mm) ((computedArrayAttrs m mm pp).map Prod.snd)).garrays.map
        Prod.snd =
    m.arrays.map (fun kv => ZArr.mk kv.1 (ChunkArg.tup t) (levelAttrs mm pp kv.2)) := by
  unfold initialize_group resolveChunks computedArrayAttrs
  simp only [List.map_map]
  rw [show ((Prod.snd ∘ fun kv : String × DArr => (kv.1, ChunkArg.tup t)) =
    (fun _ : String × DArr => ChunkArg.tup t)) from rfl]
  rw [show ((Prod.snd ∘ fun kv : String × DArr => (kv.1, levelAttrs mm pp kv.2)) =
    (fun kv : String × DArr => levelAttrs mm pp kv.2)) from rfl]
  rw [List.zip_map', zipWith_map_same, List.map_map]
  rfl

/-- The locking loop on a list of handles whose basenames and attrs come
from the collection's levels in order: each handle is wrapped exactly
when its level's native chunksize is misaligned with the uniform
destination chunk tuple. -/
theorem lockedArrays_of_map (m : Multiscales) (cl : Nat) (t : List Nat)
    (g : String × DArr → Attrs) (l : List (String × DArr))
    (hl : ∀ kv ∈ l, List.lookup kv.1 m.arrays = some kv.2) :
    lockedArrays m cl (l.map (fun kv => ZArr.mk kv.1 (ChunkArg.tup t) (g kv))) =
      Except.ok (l.map (fun kv =>
        if chunksMisaligned kv.2.chunksize t
        then DestHandle.locked (ZArr.mk kv.1 (ChunkArg.tup t) (g kv)) cl
        else DestHandle.plain (ZArr.mk kv.1 (ChunkArg.tup t) (g kv)))) := by
  induction l with
  | nil => rfl
  | cons kv rest ih =>
    simp only [List.map_cons, lockedArrays]
    rw [hl kv (by simp)]
    rw [ih (fun kv' h' => hl kv' (List.mem_cons_of_mem _ h'))]
    by_cases hmis : chunksMisaligned kv.2.chunksize t <;>
      simp [anyChunkMisaligned, hmis, lock_array]

/-- C5: when store runs with locking enabled, a client and a uniform
destination chunk tuple, the outcome is a success whose destination
handle list wraps, level by level, exactly those levels whose native
chunksize has some axis not an exact multiple of the destination chunk
size (np.any(np.mod(source, destination) > 0)); all other levels stay
unwrapped. -/
theorem store_lock_wrap_iff (m : Multiscales) (uri : String) (t : List Nat)
    (mm pp : Bool) (cl : Nat) (hkeys : (m.arrays.map Prod.fst).Nodup) :
    ∃ g ops, (Multiscales.store m uri (some (ChunkArg.tup t)) mm pp true (some cl)).2 =
      Except.ok ⟨g, m.arrays.map (fun kv =>
        if chunksMisaligned kv.2.chunksize t
        then DestHandle.locked (ZArr.mk kv.1 (ChunkArg.tup t) (levelAttrs mm pp kv.2)) cl
        else DestHandle.plain (ZArr.mk kv.1 (ChunkArg.tup t) (levelAttrs mm pp kv.2))),
        ops⟩ := by
  refine ⟨initialize_group uri (m.arrays.map Prod.fst)
      ((resolveChunks m (some (ChunkArg.tup t))).map Prod.snd)
      (computedGroupAttrs m mm) ((computedArrayAttrs m mm pp).map Prod.snd),
    store_blocks (m.arrays.map Prod.fst)
      (m.arrays.map (fun kv =>
        if chunksMisaligned kv.2.chunksize t
        then DestHandle.locked (ZArr.mk kv.1 (ChunkArg.tup t) (levelAttrs mm pp kv.2)) cl
        else DestHandle.plain (ZArr.mk kv.1 (ChunkArg.tup t) (levelAttrs mm pp kv.2)))), ?_⟩
  simp only [Multiscales.store]
  rw [store_arrays_eq m uri t mm pp]
  rw [lockedArrays_of_map m cl t (fun kv => levelAttrs mm pp kv.2) m.arrays
    (lookup_self_of_nodup m.arrays hkeys)]
  simp

theorem store_lock_wrap_iff_witness :
    ∃ g ops, (Multiscales.store exM "u" (some (ChunkArg.tup [3])) true true true (some 7)).2 =
      Except.ok ⟨g, exM.arrays.map (fun kv =>
        if chunksMisaligned kv.2.chunksize [3]
        then DestHandle.locked (ZArr.mk kv.1 (ChunkArg.tup [3]) (levelAttrs true true kv.2)) 7
        else DestHandle.plain (ZArr.mk kv.1 (ChunkArg.tup [3]) (levelAttrs true true kv.2))),
        ops⟩ :=
  store_lock_wrap_iff exM "u" [3] true true 7 (by decide)
